import Mathlib

/-!
# Verification of the COPY-TEXT row converter of `pg_replicate`

This file gives a shallow embedding of `etl/src/conversions/table_row.rs`:
the parser `TableRowConverter::try_from` that decodes one record of
PostgreSQL COPY TEXT output into a `TableRow` of typed cells, and the
`prost`-style wire encoding loops `TableRow::encode_raw` /
`TableRow::encoded_len`.

Rust strings are embedded as `List Char` (the parser iterates over
`row_str.chars()`); byte slices as `List Nat`. The external Field Decoder
(`TextFormatConverter::try_from_str`) is a parameter of the parser, so the
theorems below quantify over every possible decoder.
-/

/-- Modelled from the spec: a column's type tag (`tokio_postgres::types::Type`
is outside the shown sources; only equality, cloning into `Cell::Null` and
forwarding to the Field Decoder are used by the parser). -/
inductive PgType where
  | int4
  | text
  | boolT
  | other (name : String)
deriving DecidableEq

/-- A column schema entry: ordered `(name, type tag)` metadata. -/
structure ColumnSchema where
  name : String
  typ : PgType
deriving DecidableEq

/-- Modelled from the spec: the error returned by the external Field Decoder
(`FromTextError` is outside the shown sources; the parser only wraps it). -/
structure FromTextError where
  msg : String
deriving DecidableEq

/-- Modelled from the spec: the Typed Value variant type (`Cell` is outside
the shown sources). It has the reserved absent variant `null` carrying the
originating type tag, plus a few representative value variants. -/
inductive Cell where
  | null (typ : PgType)
  | boolV (b : Bool)
  | intV (n : Int)
  | textV (s : List Char)
deriving DecidableEq

/-- The error taxonomy of `TableRowConversionError` (table_row.rs lines 67-83). -/
inductive TableRowConversionError where
  | unsupportedType (typ : PgType)
  | invalidString
  | numColsMismatch
  | unterminatedRow
  | invalidValue (e : FromTextError)
deriving DecidableEq

/-- The row container `TableRow` (table_row.rs lines 12-15). -/
structure TableRow where
  values : List Cell
deriving DecidableEq

/-- The interface of the external Field Decoder
(`TextFormatConverter::try_from_str`): type tag and unescaped field text to
typed value or decode error. -/
abbrev Decoder := PgType → List Char → Except FromTextError Cell

/-- The escape table of the parser (table_row.rs lines 107-126): the string
pushed onto `val_str` for the character following a backslash. -/
def escStr (c : Char) : List Char :=
  if c = 'N' then ['\\', 'N']
  else if c = 'b' then [Char.ofNat 8]
  else if c = 'f' then [Char.ofNat 12]
  else if c = 'n' then ['\n']
  else if c = 'r' then ['\r']
  else if c = 't' then ['\t']
  else if c = 'v' then [Char.ofNat 11]
  else [c]

/-- Handling of one completed field (table_row.rs lines 150-173): take the
next column schema (`NumColsMismatch` if exhausted), return `Cell.null` for
the `\N` sentinel, otherwise run the Field Decoder. Returns the produced
cell and the remaining schemas. -/
def processField (dec : Decoder) (schemas : List ColumnSchema) (valStr : List Char) :
    Except TableRowConversionError (Cell × List ColumnSchema) :=
  match schemas with
  | [] => .error .numColsMismatch
  | cs :: rest =>
    if valStr = ['\\', 'N'] then
      .ok (Cell.null cs.typ, rest)
    else
      match dec cs.typ valStr with
      | .ok v => .ok (v, rest)
      | .error e => .error (.invalidValue e)

/-- The character-scanning loop of `TableRowConverter::try_from`
(table_row.rs lines 103-175). State: remaining characters, `in_escape`,
`row_terminated`, the accumulated `val_str`, the remaining column schemas,
and the cells pushed so far. At a tab or (unescaped) line feed the current
field is completed; at end of input the parse succeeds iff a line feed was
seen, discarding any pending `val_str`. -/
def go (dec : Decoder) : List Char → Bool → Bool → List Char → List ColumnSchema →
    List Cell → Except TableRowConversionError (List Cell)
  | [], _, rowTerminated, _, _, values =>
    if rowTerminated then .ok values else .error .unterminatedRow
  | c :: rest, inEscape, rowTerminated, valStr, schemas, values =>
    if inEscape then
      go dec rest false rowTerminated (valStr ++ escStr c) schemas values
    else if c = '\t' then
      match processField dec schemas valStr with
      | .ok (v, schemas₂) => go dec rest false rowTerminated [] schemas₂ (values ++ [v])
      | .error e => .error e
    else if c = '\n' then
      match processField dec schemas valStr with
      | .ok (v, schemas₂) => go dec rest false true [] schemas₂ (values ++ [v])
      | .error e => .error e
    else if c = '\\' then
      go dec rest true rowTerminated valStr schemas values
    else
      go dec rest false rowTerminated (valStr ++ [c]) schemas values

/-- `TableRowConverter::try_from` after the `str::from_utf8` step: parse the
character sequence of one record against the column schemas
(table_row.rs lines 93-177). -/
def tryFromChars (dec : Decoder) (rowStr : List Char) (columnSchemas : List ColumnSchema) :
    Except TableRowConversionError TableRow :=
  (go dec rowStr false false [] columnSchemas []).map TableRow.mk

/-- Strict UTF-8 decoding of a byte sequence, as `str::from_utf8` validates it
(rejecting stray continuation bytes, overlong forms, surrogates and values
above 0x10FFFF). The `fuel` argument only drives the recursion; the wrapper
below supplies `bytes.length`, which always suffices since every step consumes
at least one byte. -/
def utf8DecodeAux : Nat → List Nat → Option (List Char)
  | _, [] => some []
  | 0, _ :: _ => none
  | fuel + 1, b :: rest =>
    if b < 0x80 then
      (utf8DecodeAux fuel rest).map (fun cs => Char.ofNat b :: cs)
    else if b < 0xC2 then none
    else if b < 0xE0 then
      match rest with
      | b₁ :: rest₂ =>
        if 0x80 ≤ b₁ ∧ b₁ < 0xC0 then
          (utf8DecodeAux fuel rest₂).map
            (fun cs => Char.ofNat ((b - 0xC0) * 0x40 + (b₁ - 0x80)) :: cs)
        else none
      | [] => none
    else if b < 0xF0 then
      match rest with
      | b₁ :: b₂ :: rest₃ =>
        if (if b = 0xE0 then 0xA0 else 0x80) ≤ b₁ ∧ b₁ < (if b = 0xED then 0xA0 else 0xC0)
            ∧ 0x80 ≤ b₂ ∧ b₂ < 0xC0 then
          (utf8DecodeAux fuel rest₃).map
            (fun cs => Char.ofNat ((b - 0xE0) * 0x1000 + (b₁ - 0x80) * 0x40 + (b₂ - 0x80)) :: cs)
        else none
      | _ => none
    else if b < 0xF5 then
      match rest with
      | b₁ :: b₂ :: b₃ :: rest₄ =>
        if (if b = 0xF0 then 0x90 else 0x80) ≤ b₁ ∧ b₁ < (if b = 0xF4 then 0x90 else 0xC0)
            ∧ 0x80 ≤ b₂ ∧ b₂ < 0xC0 ∧ 0x80 ≤ b₃ ∧ b₃ < 0xC0 then
          (utf8DecodeAux fuel rest₄).map
            (fun cs => Char.ofNat ((b - 0xF0) * 0x40000 + (b₁ - 0x80) * 0x1000
              + (b₂ - 0x80) * 0x40 + (b₃ - 0x80)) :: cs)
        else none
      | _ => none
    else none

/-- Strict UTF-8 decoding of a full byte sequence (`str::from_utf8`). -/
def utf8Decode (bytes : List Nat) : Option (List Char) :=
  utf8DecodeAux bytes.length bytes

/-- `TableRowConverter::try_from` (table_row.rs lines 89-178): UTF-8 decode
the record bytes (`InvalidString` on failure), then run the scanning loop. -/
def tryFrom (dec : Decoder) (row : List Nat) (columnSchemas : List ColumnSchema) :
    Except TableRowConversionError TableRow :=
  match utf8Decode row with
  | none => .error .invalidString
  | some chars => tryFromChars dec chars columnSchemas

/-- Modelled from the spec: a concrete instance of the external Field Decoder
(`TextFormatConverter::try_from_str` is outside the shown sources), used to
instantiate decoder-generic theorems: `text` passes the unescaped text
through, `bool` accepts `t`/`f`, everything else is a decode error. -/
def demoDec : Decoder := fun typ s =>
  match typ with
  | .text => .ok (.textV s)
  | .boolT =>
    if s = ['t'] then .ok (.boolV true)
    else if s = ['f'] then .ok (.boolV false)
    else .error ⟨"invalid bool"⟩
  | _ => .error ⟨"unsupported type"⟩

/-- Well-formedness of the raw (still escaped) text of a single field: it
contains no unescaped tab or line feed and does not end in the middle of an
escape, so the scanning loop consumes it entirely into `val_str`. -/
def isFieldRaw : List Char → Bool
  | [] => true
  | ['\\'] => false
  | '\\' :: _ :: rest₂ => isFieldRaw rest₂
  | c :: rest => c ≠ '\t' && c ≠ '\n' && isFieldRaw rest

/-- The fully unescaped text of a field's raw text, applying the parser's
escape table `escStr` after every backslash. -/
def unescapeRaw : List Char → List Char
  | [] => []
  | ['\\'] => []
  | '\\' :: e :: rest₂ => escStr e ++ unescapeRaw rest₂
  | c :: rest => c :: unescapeRaw rest

/-- Reference escaping of one character per PostgreSQL's COPY TEXT output
grammar (`CopyAttributeOutText` in `copyto.c`, which the parser documents as
its counterpart): backslash, line feed, carriage return, tab, backspace,
form feed and vertical tab are written as two-character escapes; everything
else is written literally. -/
def copyEscapeChar (c : Char) : List Char :=
  if c = '\\' then ['\\', '\\']
  else if c = '\n' then ['\\', 'n']
  else if c = '\r' then ['\\', 'r']
  else if c = '\t' then ['\\', 't']
  else if c = Char.ofNat 8 then ['\\', 'b']
  else if c = Char.ofNat 12 then ['\\', 'f']
  else if c = Char.ofNat 11 then ['\\', 'v']
  else [c]

/-- Reference escaping of a whole field text per the COPY TEXT grammar. -/
def copyEscape (s : List Char) : List Char :=
  (s.map copyEscapeChar).flatten

/-- Little-endian base-128 varint encoding of a natural number (the protobuf
wire primitive beneath the prost encoder). -/
def varintEncode (n : Nat) : List Nat :=
  if n < 0x80 then [n] else (n % 0x80 + 0x80) :: varintEncode (n / 0x80)
decreasing_by exact Nat.div_lt_self (by omega) (by norm_num)

/-- Byte length of `varintEncode`, computed arithmetically. -/
def varintLen (n : Nat) : Nat :=
  if n < 0x80 then 1 else 1 + varintLen (n / 0x80)
decreasing_by exact Nat.div_lt_self (by omega) (by norm_num)

/-- UTF-8 byte size of one character, computed without building the bytes. -/
def utf8ByteSize (c : Char) : Nat :=
  if c.toNat < 0x80 then 1
  else if c.toNat < 0x800 then 2
  else if c.toNat < 0x10000 then 3
  else 4

/-- UTF-8 encoding of one character. -/
def utf8EncodeChar (c : Char) : List Nat :=
  if c.toNat < 0x80 then [c.toNat]
  else if c.toNat < 0x800 then
    [0xC0 + c.toNat / 0x40, 0x80 + c.toNat % 0x40]
  else if c.toNat < 0x10000 then
    [0xE0 + c.toNat / 0x1000, 0x80 + c.toNat / 0x40 % 0x40, 0x80 + c.toNat % 0x40]
  else
    [0xF0 + c.toNat / 0x40000, 0x80 + c.toNat / 0x1000 % 0x40,
      0x80 + c.toNat / 0x40 % 0x40, 0x80 + c.toNat % 0x40]

/-- UTF-8 encoding of a character sequence. -/
def utf8Encode (s : List Char) : List Nat :=
  (s.map utf8EncodeChar).flatten

/-- UTF-8 byte length of a character sequence, without building the bytes. -/
def utf8Size (s : List Char) : Nat :=
  (s.map utf8ByteSize).sum

/-- Modelled from the spec: `Cell::encode_prost` (outside the shown sources).
The spec describes the wire message as a sequence of tag-framed values; this
model frames each present cell with a protobuf-style varint key
`tag * 8 + wire-type` (wire type 0 for varint scalars, 2 for
length-delimited text); an absent (`null`) cell is omitted. -/
def Cell.encodeProst (tag : Nat) : Cell → List Nat
  | .null _ => []
  | .boolV b => varintEncode (tag * 8) ++ [if b then 1 else 0]
  | .intV n => varintEncode (tag * 8) ++ varintEncode n.natAbs
  | .textV s => varintEncode (tag * 8 + 2) ++ varintEncode (utf8Size s) ++ utf8Encode s

/-- Modelled from the spec: `Cell::encoded_len_prost` (outside the shown
sources): the byte length of `Cell.encodeProst`, computed arithmetically
without materializing the encoded bytes. -/
def Cell.encodedLenProst (tag : Nat) : Cell → Nat
  | .null _ => 0
  | .boolV _ => varintLen (tag * 8) + 1
  | .intV n => varintLen (tag * 8) + varintLen n.natAbs
  | .textV s => varintLen (tag * 8 + 2) + varintLen (utf8Size s) + utf8Size s

/-- The encoding loop of `TableRow::encode_raw` (table_row.rs lines 25-34),
parameterized by the per-cell encoder: encode each cell with the current tag,
incrementing the tag by one per cell. -/
def encodeRawAux (enc : Nat → Cell → List Nat) : Nat → List Cell → List Nat
  | _, [] => []
  | tag, cell :: rest => enc tag cell ++ encodeRawAux enc (tag + 1) rest

/-- `TableRow::encode_raw` (table_row.rs lines 25-34): tags start at 1. -/
def TableRow.encodeRaw (row : TableRow) : List Nat :=
  encodeRawAux Cell.encodeProst 1 row.values

/-- The length loop of `TableRow::encoded_len` (table_row.rs lines 49-58),
parameterized like `encodeRawAux`. -/
def encodedLenAux (encLen : Nat → Cell → Nat) : Nat → List Cell → Nat
  | _, [] => 0
  | tag, cell :: rest => encLen tag cell + encodedLenAux encLen (tag + 1) rest

/-- `TableRow::encoded_len` (table_row.rs lines 49-58): tags start at 1. -/
def TableRow.encodedLen (row : TableRow) : Nat :=
  encodedLenAux Cell.encodedLenProst 1 row.values




/-! ## Lemmas about the scanning loop -/

/-- Unfolding step: in escape state the next character is pushed through the
escape table and the escape state is cleared. -/
theorem go_escape_step (dec : Decoder) (c : Char) (rest : List Char) (rt : Bool)
    (valStr : List Char) (schemas : List ColumnSchema) (values : List Cell) :
    go dec (c :: rest) true rt valStr schemas values
      = go dec rest false rt (valStr ++ escStr c) schemas values := by
  simp [go]

/-- Unfolding step: an unescaped backslash only sets the escape state. -/
theorem go_backslash_step (dec : Decoder) (rest : List Char) (rt : Bool)
    (valStr : List Char) (schemas : List ColumnSchema) (values : List Cell) :
    go dec ('\\' :: rest) false rt valStr schemas values
      = go dec rest true rt valStr schemas values := by
  simp [go]

/-- Unfolding step: an ordinary character is appended to `val_str`. -/
theorem go_plain_step (dec : Decoder) (c : Char) (rest : List Char) (rt : Bool)
    (valStr : List Char) (schemas : List ColumnSchema) (values : List Cell)
    (ht : c ≠ '\t') (hn : c ≠ '\n') (hb : c ≠ '\\') :
    go dec (c :: rest) false rt valStr schemas values
      = go dec rest false rt (valStr ++ [c]) schemas values := by
  simp [go, ht, hn, hb]

/-- Unfolding of `unescapeRaw` at a non-backslash head. -/
theorem unescapeRaw_cons (c : Char) (rest : List Char) (hbs : c ≠ '\\') :
    unescapeRaw (c :: rest) = c :: unescapeRaw rest := by
  simp [unescapeRaw, hbs]

/-- Unfolding of `unescapeRaw` at an escape. -/
theorem unescapeRaw_esc (e : Char) (rest : List Char) :
    unescapeRaw ('\\' :: e :: rest) = escStr e ++ unescapeRaw rest := rfl

/-- Unfolding of `isFieldRaw` at a non-backslash head. -/
theorem isFieldRaw_cons (c : Char) (rest : List Char) (hbs : c ≠ '\\') :
    isFieldRaw (c :: rest) = (c ≠ '\t' && c ≠ '\n' && isFieldRaw rest) := by
  simp [isFieldRaw, hbs]

/-- Scanning a well-formed raw field accumulates exactly its unescaped text
onto `val_str`, leaving every other component of the loop state unchanged. -/
theorem go_scan (dec : Decoder) (raw : List Char) (h : isFieldRaw raw = true) :
    ∀ (rest : List Char) (rt : Bool) (valStr : List Char) (schemas : List ColumnSchema)
      (values : List Cell),
      go dec (raw ++ rest) false rt valStr schemas values
        = go dec rest false rt (valStr ++ unescapeRaw raw) schemas values := by
  induction raw using isFieldRaw.induct with
  | case1 =>
    intro rest rt v s vals
    simp [unescapeRaw]
  | case2 =>
    exact absurd h (by decide)
  | case3 e rest₂ ih =>
    intro rest rt v s vals
    simp only [isFieldRaw] at h
    rw [List.cons_append, List.cons_append, go_backslash_step, go_escape_step,
      ih h rest rt (v ++ escStr e) s vals, unescapeRaw_esc]
    simp
  | case4 c rest₂ hp₁ hp₂ ih =>
    intro rest rt v s vals
    have hbs : c ≠ '\\' := by
      intro hc
      cases rest₂ with
      | nil => exact hp₁ hc rfl
      | cons a b => exact hp₂ a b hc rfl
    rw [isFieldRaw_cons c rest₂ hbs] at h
    simp only [Bool.and_eq_true, decide_eq_true_eq] at h
    have ht : c ≠ '\t' := h.1.1
    have hn : c ≠ '\n' := h.1.2
    rw [List.cons_append, go_plain_step dec c _ rt v s vals ht hn hbs, ih h.2,
      unescapeRaw_cons c rest₂ hbs]
    simp

/-- Unfolding of `copyEscape` at a cons. -/
theorem copyEscape_cons (c : Char) (s : List Char) :
    copyEscape (c :: s) = copyEscapeChar c ++ copyEscape s := by
  simp [copyEscape]

/-- The reference COPY TEXT escaping of any field text is a well-formed raw
field (no unescaped tab or line feed, no dangling backslash), and unescaping
it with the parser's escape table recovers the original text exactly. -/
theorem copyEscape_roundtrip (s : List Char) :
    isFieldRaw (copyEscape s) = true ∧ unescapeRaw (copyEscape s) = s := by
  induction s with
  | nil => exact ⟨rfl, rfl⟩
  | cons c s ih =>
    rw [copyEscape_cons]
    unfold copyEscapeChar
    split_ifs with h1 h2 h3 h4 h5 h6 h7
    · subst h1
      exact ⟨by simpa [isFieldRaw] using ih.1,
        by simp [unescapeRaw, escStr, ih.2]⟩
    · subst h2
      exact ⟨by simpa [isFieldRaw] using ih.1,
        by simp [unescapeRaw, escStr, ih.2]⟩
    · subst h3
      exact ⟨by simpa [isFieldRaw] using ih.1,
        by simp [unescapeRaw, escStr, ih.2]⟩
    · subst h4
      exact ⟨by simpa [isFieldRaw] using ih.1,
        by simp [unescapeRaw, escStr, ih.2]⟩
    · subst h5
      exact ⟨by simpa [isFieldRaw] using ih.1,
        by simp [unescapeRaw, escStr, ih.2]⟩
    · subst h6
      exact ⟨by simpa [isFieldRaw] using ih.1,
        by simp [unescapeRaw, escStr, ih.2]⟩
    · subst h7
      exact ⟨by simpa [isFieldRaw] using ih.1,
        by simp [unescapeRaw, escStr, ih.2]⟩
    · refine ⟨?_, ?_⟩
      · rw [List.singleton_append, isFieldRaw_cons c _ h1]
        simp [h2, h4, ih.1]
      · rw [List.singleton_append, unescapeRaw_cons c _ h1, ih.2]

/-- Unfolding step: an unescaped tab completes the current field. -/
theorem go_tab_step (dec : Decoder) (rest : List Char) (rt : Bool) (valStr : List Char)
    (schemas : List ColumnSchema) (values : List Cell) :
    go dec ('\t' :: rest) false rt valStr schemas values
      = match processField dec schemas valStr with
        | .ok (cell, schemas₂) => go dec rest false rt [] schemas₂ (values ++ [cell])
        | .error e => .error e := by
  simp [go]

/-- Unfolding step: an unescaped line feed completes the current field and
records that the row was terminated. -/
theorem go_lf_step (dec : Decoder) (rest : List Char) (rt : Bool) (valStr : List Char)
    (schemas : List ColumnSchema) (values : List Cell) :
    go dec ('\n' :: rest) false rt valStr schemas values
      = match processField dec schemas valStr with
        | .ok (cell, schemas₂) => go dec rest false true [] schemas₂ (values ++ [cell])
        | .error e => .error e := by
  simp [go]

/-- Unfolding step: at end of input, the parse succeeds with the pushed cells
iff a line feed was seen, else it is an unterminated row. -/
theorem go_nil (dec : Decoder) (esc rt : Bool) (valStr : List Char)
    (schemas : List ColumnSchema) (values : List Cell) :
    go dec [] esc rt valStr schemas values
      = if rt then .ok values else .error .unterminatedRow := rfl

/-! ## The claims -/

/-- C1: for every Field Decoder, every record position and every column
schema, a field whose fully-unescaped text is exactly the two characters
`\N` is converted to `Cell.null` carrying that column's declared type tag,
whether the field ends at a tab or at a line feed; the decoder argument is
universally quantified, so the Field Decoder is never consulted for such a
field. The raw spelling `\\N` satisfies the hypotheses (see the witness), as
does the plain `\N`. The last conjunct instances this for `try_from` on a
one-column record. -/
theorem tryFrom_null_sentinel (dec : Decoder) (raw rest : List Char) (cs : ColumnSchema)
    (schemas : List ColumnSchema) (values : List Cell) (rt : Bool)
    (hraw : isFieldRaw raw = true) (hnull : unescapeRaw raw = ['\\', 'N']) :
    go dec (raw ++ '\t' :: rest) false rt [] (cs :: schemas) values
      = go dec rest false rt [] schemas (values ++ [Cell.null cs.typ])
    ∧ go dec (raw ++ '\n' :: rest) false rt [] (cs :: schemas) values
      = go dec rest false true [] schemas (values ++ [Cell.null cs.typ])
    ∧ tryFromChars dec (raw ++ ['\n']) [cs] = .ok ⟨[Cell.null cs.typ]⟩ := by
  have hscan := go_scan dec raw hraw
  refine ⟨?_, ?_, ?_⟩
  · rw [hscan ('\t' :: rest) rt [] (cs :: schemas) values, List.nil_append, hnull,
      go_tab_step]
    simp [processField]
  · rw [hscan ('\n' :: rest) rt [] (cs :: schemas) values, List.nil_append, hnull,
      go_lf_step]
    simp [processField]
  · unfold tryFromChars
    rw [hscan ['\n'] false [] [cs] [], List.nil_append, hnull, go_lf_step]
    simp [processField, go_nil, Except.map]

/-- Witness for C1: the escaped raw spelling `\\N` of the sentinel, against a
one-column `int4` schema and the concrete demo decoder, yields the absent
cell tagged `int4`. -/
theorem tryFrom_null_sentinel_witness :
    isFieldRaw ['\\', '\\', 'N'] = true
    ∧ unescapeRaw ['\\', '\\', 'N'] = ['\\', 'N']
    ∧ tryFromChars demoDec (['\\', '\\', 'N'] ++ ['\n']) [⟨"c", PgType.int4⟩]
        = .ok ⟨[Cell.null PgType.int4]⟩ :=
  ⟨by decide, by decide,
    (tryFrom_null_sentinel demoDec ['\\', '\\', 'N'] [] ⟨"c", PgType.int4⟩ [] [] false
      (by decide) (by decide)).2.2⟩

/-- C4: escape-table fidelity. A backslash followed by `c` appends `escStr c`
to the current field text, and the table maps `b f n r t v` to the bytes
0x08 0x0C 0x0A 0x0D 0x09 0x0B, maps `N` to the two literal characters
backslash + `N`, and maps every other character to itself with the backslash
dropped. -/
theorem escape_table (dec : Decoder) (c : Char) (rest valStr : List Char) (rt : Bool)
    (schemas : List ColumnSchema) (values : List Cell) :
    go dec ('\\' :: c :: rest) false rt valStr schemas values
      = go dec rest false rt (valStr ++ escStr c) schemas values
    ∧ escStr 'b' = [Char.ofNat 8] ∧ escStr 'f' = [Char.ofNat 12]
    ∧ escStr 'n' = [Char.ofNat 10] ∧ escStr 'r' = [Char.ofNat 13]
    ∧ escStr 't' = [Char.ofNat 9] ∧ escStr 'v' = [Char.ofNat 11]
    ∧ escStr 'N' = ['\\', 'N']
    ∧ (c ∉ (['N', 'b', 'f', 'n', 'r', 't', 'v'] : List Char) → escStr c = [c]) := by
  refine ⟨by rw [go_backslash_step, go_escape_step], by decide, by decide, by decide,
    by decide, by decide, by decide, by decide, ?_⟩
  intro hc
  obtain ⟨h1, h2, h3, h4, h5, h6, h7⟩ :
      c ≠ 'N' ∧ c ≠ 'b' ∧ c ≠ 'f' ∧ c ≠ 'n' ∧ c ≠ 'r' ∧ c ≠ 't' ∧ c ≠ 'v' := by
    simpa [not_or] using hc
  simp [escStr, h1, h2, h3, h4, h5, h6, h7]

/-- Witness for C4: the escape step and the default table row at the concrete
character `x`, which is in none of the special escape entries. -/
theorem escape_table_witness :
    go demoDec ['\\', 'x'] false false [] [] []
      = go demoDec [] false false ([] ++ escStr 'x') [] []
    ∧ escStr 'x' = ['x'] :=
  ⟨(escape_table demoDec 'x' [] [] false [] []).1,
    (escape_table demoDec 'x' [] [] false [] []).2.2.2.2.2.2.2.2 (by decide)⟩

/-- C9: an escaped tab contributes a literal tab to the current field text
instead of separating fields, and an escaped line feed contributes a literal
line feed instead of terminating the record (the `row_terminated` flag `rt`
is untouched); the last two conjuncts run whole records through the
converter to show the field survives with the separator character embedded. -/
theorem escaped_separators_literal (dec : Decoder) (rest valStr : List Char) (rt : Bool)
    (schemas : List ColumnSchema) (values : List Cell) :
    go dec ('\\' :: '\t' :: rest) false rt valStr schemas values
      = go dec rest false rt (valStr ++ ['\t']) schemas values
    ∧ go dec ('\\' :: '\n' :: rest) false rt valStr schemas values
      = go dec rest false rt (valStr ++ ['\n']) schemas values
    ∧ tryFromChars demoDec ['a', '\\', '\t', 'b', '\n'] [⟨"c", PgType.text⟩]
        = .ok ⟨[Cell.textV ['a', '\t', 'b']]⟩
    ∧ tryFromChars demoDec ['a', '\\', '\n', 'b', '\n'] [⟨"c", PgType.text⟩]
        = .ok ⟨[Cell.textV ['a', '\n', 'b']]⟩ := by
  have h1 : escStr '\t' = ['\t'] := by decide
  have h2 : escStr '\n' = ['\n'] := by decide
  exact ⟨by rw [go_backslash_step, go_escape_step, h1],
    by rw [go_backslash_step, go_escape_step, h2], rfl, rfl⟩

/-- C10: on the record consisting of exactly one line feed the converter
consumes exactly one field whose unescaped text is empty: with at least one
schema column the empty text is handed to the Field Decoder for the first
column (conjuncts one and two cover the decoder's two outcomes), with an
empty schema the converter fails with the column-count mismatch, and every
successful parse of this record has exactly one cell — never zero. -/
theorem lf_only_record (dec : Decoder) (cs : ColumnSchema) (ss : List ColumnSchema) :
    (∀ v, dec cs.typ [] = .ok v → tryFromChars dec ['\n'] (cs :: ss) = .ok ⟨[v]⟩)
    ∧ (∀ e, dec cs.typ [] = .error e →
        tryFromChars dec ['\n'] (cs :: ss) = .error (.invalidValue e))
    ∧ tryFromChars dec ['\n'] [] = .error .numColsMismatch
    ∧ (∀ row, tryFromChars dec ['\n'] (cs :: ss) = .ok row → row.values.length = 1) := by
  refine ⟨?_, ?_, ?_, ?_⟩
  · intro v hv
    unfold tryFromChars
    rw [go_lf_step]
    simp [processField, hv, go_nil, Except.map]
  · intro e he
    unfold tryFromChars
    rw [go_lf_step]
    simp [processField, he, Except.map]
  · unfold tryFromChars
    rw [go_lf_step]
    simp [processField, Except.map]
  · intro row hrow
    unfold tryFromChars at hrow
    rw [go_lf_step] at hrow
    cases hv : dec cs.typ [] with
    | ok v =>
      simp [processField, hv, go_nil, Except.map] at hrow
      simp [← hrow]
    | error e =>
      simp [processField, hv, Except.map] at hrow

/-- Witness for C10: the demo decoder accepts the empty text for a `text`
column, so the one-line-feed record parses to a single empty text cell. -/
theorem lf_only_record_witness :
    demoDec PgType.text [] = .ok (Cell.textV [])
    ∧ tryFromChars demoDec ['\n'] [⟨"c", PgType.text⟩] = .ok ⟨[Cell.textV []]⟩ :=
  ⟨rfl, (lf_only_record demoDec ⟨"c", PgType.text⟩ []).1 (Cell.textV []) rfl⟩

/-- C3: round-trip. For every column schema and every value the Field
Decoder can produce (a value `v` whose database text form `text` the decoder
maps back to `v`), escaping that text with the reference COPY TEXT escaping
rules and parsing the resulting record yields exactly `v` — except for the
collision case where the text is the two characters `\N`, which is excluded
by hypothesis. -/
theorem copy_roundtrip_parse (dec : Decoder) (cs : ColumnSchema) (v : Cell)
    (text : List Char) (hdec : dec cs.typ text = .ok v) (hne : text ≠ ['\\', 'N']) :
    tryFromChars dec (copyEscape text ++ ['\n']) [cs] = .ok ⟨[v]⟩ := by
  unfold tryFromChars
  rw [go_scan dec (copyEscape text) (copyEscape_roundtrip text).1 ['\n'] false [] [cs] [],
    List.nil_append, (copyEscape_roundtrip text).2, go_lf_step]
  simp [processField, hne, hdec, go_nil, Except.map]

/-- Witness for C3: a text value containing a tab and a backslash survives
the escape-then-parse round trip. -/
theorem copy_roundtrip_parse_witness :
    demoDec PgType.text ['a', '\t', '\\'] = .ok (Cell.textV ['a', '\t', '\\'])
    ∧ (['a', '\t', '\\'] : List Char) ≠ ['\\', 'N']
    ∧ tryFromChars demoDec (copyEscape ['a', '\t', '\\'] ++ ['\n']) [⟨"c", PgType.text⟩]
        = .ok ⟨[Cell.textV ['a', '\t', '\\']]⟩ :=
  ⟨rfl, by decide,
    copy_roundtrip_parse demoDec ⟨"c", PgType.text⟩ (Cell.textV ['a', '\t', '\\'])
      ['a', '\t', '\\'] rfl (by decide)⟩

/-- A successful `processField` consumed exactly one column schema. -/
theorem processField_ok_schemas (dec : Decoder) (schemas : List ColumnSchema)
    (valStr : List Char) (cell : Cell) (schemas₂ : List ColumnSchema)
    (h : processField dec schemas valStr = .ok (cell, schemas₂)) :
    schemas.length = schemas₂.length + 1 := by
  cases schemas with
  | nil => simp [processField] at h
  | cons cs rest =>
    simp only [processField] at h
    split_ifs at h with hv
    · simp only [Except.ok.injEq, Prod.mk.injEq] at h
      rw [← h.2]
      simp
    · cases hd : dec cs.typ valStr with
      | ok v =>
        rw [hd] at h
        simp only [Except.ok.injEq, Prod.mk.injEq] at h
        rw [← h.2]
        simp
      | error e =>
        rw [hd] at h
        simp at h

/-- Any successful run of the scanning loop produces at most one cell per
remaining column schema (on top of the cells already pushed). -/
theorem go_ok_length (dec : Decoder) :
    ∀ (chars : List Char) (esc rt : Bool) (valStr : List Char)
      (schemas : List ColumnSchema) (values vs : List Cell),
      go dec chars esc rt valStr schemas values = .ok vs →
      vs.length ≤ values.length + schemas.length := by
  intro chars
  induction chars with
  | nil =>
    intro esc rt v s vals vs h
    rw [go_nil] at h
    cases rt with
    | true =>
      simp only [if_true, Except.ok.injEq] at h
      rw [← h]
      simp
    | false => simp at h
  | cons c rest ih =>
    intro esc rt v s vals vs h
    cases esc with
    | true =>
      rw [go_escape_step] at h
      exact ih false rt _ s vals vs h
    | false =>
      by_cases hc1 : c = '\t'
      · subst hc1
        rw [go_tab_step] at h
        cases hpf : processField dec s v with
        | ok pr =>
          obtain ⟨cell, s₂⟩ := pr
          rw [hpf] at h
          have hlen := processField_ok_schemas dec s v cell s₂ hpf
          have hih := ih false rt [] s₂ (vals ++ [cell]) vs h
          simp at hih
          omega
        | error e =>
          rw [hpf] at h
          simp at h
      · by_cases hc2 : c = '\n'
        · subst hc2
          rw [go_lf_step] at h
          cases hpf : processField dec s v with
          | ok pr =>
            obtain ⟨cell, s₂⟩ := pr
            rw [hpf] at h
            have hlen := processField_ok_schemas dec s v cell s₂ hpf
            have hih := ih false true [] s₂ (vals ++ [cell]) vs h
            simp at hih
            omega
          | error e =>
            rw [hpf] at h
            simp at h
        · by_cases hc3 : c = '\\'
          · subst hc3
            rw [go_backslash_step] at h
            exact ih true rt v s vals vs h
          · rw [go_plain_step dec c rest rt v s vals hc1 hc2 hc3] at h
            exact ih false rt (v ++ [c]) s vals vs h

/-- C2 (amended): the column-count check is one-sided. Whenever a field
boundary (tab or line feed) is reached with the schema list already
exhausted, the converter fails with the column-count mismatch, and hence a
successful parse never returns more cells than schema columns. But when the
fields are exhausted before the schema, no error is raised: the third
conjunct parses a one-field record against a two-column schema and obtains a
one-cell row. -/
theorem num_cols_check_one_sided (dec : Decoder) :
    (∀ (c : Char) (rest valStr : List Char) (rt : Bool) (values : List Cell),
      c = '\t' ∨ c = '\n' →
      go dec (c :: rest) false rt valStr [] values = .error .numColsMismatch)
    ∧ (∀ (chars : List Char) (schemas : List ColumnSchema) (row : TableRow),
        tryFromChars dec chars schemas = .ok row → row.values.length ≤ schemas.length)
    ∧ tryFromChars demoDec ['a', '\n'] [⟨"c1", PgType.text⟩, ⟨"c2", PgType.text⟩]
        = .ok ⟨[Cell.textV ['a']]⟩ := by
  refine ⟨?_, ?_, rfl⟩
  · intro c rest v rt vals hc
    cases hc with
    | inl h =>
      subst h
      rw [go_tab_step]
      simp [processField]
    | inr h =>
      subst h
      rw [go_lf_step]
      simp [processField]
  · intro chars schemas row h
    unfold tryFromChars at h
    cases hg : go dec chars false false [] schemas [] with
    | ok vs =>
      rw [hg] at h
      simp only [Except.map, Except.ok.injEq] at h
      have hlen := go_ok_length dec chars false false [] schemas [] vs hg
      rw [← h]
      simpa using hlen
    | error e =>
      rw [hg] at h
      simp [Except.map] at h

/-- Witness for C2 (amended): a tab reached with an exhausted schema list
fails with the column-count mismatch. -/
theorem num_cols_check_one_sided_witness :
    go demoDec ['\t'] false false [] [] [] = .error .numColsMismatch
    ∧ (('\t' : Char) = '\t' ∨ ('\t' : Char) = '\n') :=
  ⟨(num_cols_check_one_sided demoDec).1 '\t' [] [] false [] (Or.inl rfl), Or.inl rfl⟩

/-- Counterexample for C2 as stated: the record `a\n` has one tab-delimited
field, fewer than the two schema columns, yet the converter succeeds and the
returned row has one value, not `len(column_schema)` values. -/
theorem num_cols_counterexample :
    tryFromChars demoDec ['a', '\n'] [⟨"c1", PgType.text⟩, ⟨"c2", PgType.text⟩]
      = .ok ⟨[Cell.textV ['a']]⟩
    ∧ (TableRow.mk [Cell.textV ['a']]).values.length
        ≠ ([⟨"c1", PgType.text⟩, ⟨"c2", PgType.text⟩] : List ColumnSchema).length :=
  ⟨rfl, by decide⟩

/-- With the row not yet terminated and no line feed among the remaining
characters, the scanning loop can never succeed. -/
theorem go_no_lf_not_ok (dec : Decoder) :
    ∀ (chars : List Char) (esc : Bool) (valStr : List Char)
      (schemas : List ColumnSchema) (values vs : List Cell),
      '\n' ∉ chars → go dec chars esc false valStr schemas values ≠ .ok vs := by
  intro chars
  induction chars with
  | nil =>
    intro esc v s vals vs _
    rw [go_nil]
    simp
  | cons c rest ih =>
    intro esc v s vals vs hmem
    have hcn : c ≠ '\n' := fun hh => hmem (hh ▸ List.mem_cons_self c rest)
    have hrest : '\n' ∉ rest := fun hh => hmem (List.mem_cons_of_mem c hh)
    cases esc with
    | true =>
      rw [go_escape_step]
      exact ih false _ s vals vs hrest
    | false =>
      by_cases hc1 : c = '\t'
      · subst hc1
        rw [go_tab_step]
        cases hpf : processField dec s v with
        | ok pr =>
          obtain ⟨cell, s₂⟩ := pr
          exact ih false [] s₂ (vals ++ [cell]) vs hrest
        | error e => simp
      · by_cases hc3 : c = '\\'
        · subst hc3
          rw [go_backslash_step]
          exact ih true v s vals vs hrest
        · rw [go_plain_step dec c rest false v s vals hc1 hcn hc3]
          exact ih false (v ++ [c]) s vals vs hrest

/-- With the row not yet terminated and neither a line feed nor a tab among
the remaining characters, the scanning loop always reports an unterminated
row: no field boundary is ever reached, so no other error can preempt it. -/
theorem go_no_sep_unterminated (dec : Decoder) :
    ∀ (chars : List Char) (esc : Bool) (valStr : List Char)
      (schemas : List ColumnSchema) (values : List Cell),
      '\n' ∉ chars → '\t' ∉ chars →
      go dec chars esc false valStr schemas values = .error .unterminatedRow := by
  intro chars
  induction chars with
  | nil =>
    intro esc v s vals _ _
    rw [go_nil]
    simp
  | cons c rest ih =>
    intro esc v s vals hn ht
    have hcn : c ≠ '\n' := fun hh => hn (hh ▸ List.mem_cons_self c rest)
    have hct : c ≠ '\t' := fun hh => ht (hh ▸ List.mem_cons_self c rest)
    have hrn : '\n' ∉ rest := fun hh => hn (List.mem_cons_of_mem c hh)
    have hrt : '\t' ∉ rest := fun hh => ht (List.mem_cons_of_mem c hh)
    cases esc with
    | true =>
      rw [go_escape_step]
      exact ih false _ s vals hrn hrt
    | false =>
      by_cases hc3 : c = '\\'
      · subst hc3
        rw [go_backslash_step]
        exact ih true v s vals hrn hrt
      · rw [go_plain_step dec c rest false v s vals hct hcn hc3]
        exact ih false (v ++ [c]) s vals hrn hrt

/-- C5 (amended): an input with no line feed never yields a Row; if it also
contains no tab — so no field boundary can trigger a column-count or decode
error first — the error is exactly the unterminated-row error, and in
particular the empty input yields it; an input with a terminating line feed
is the normal success path (last conjunct). -/
theorem unterminated_record (dec : Decoder) :
    (∀ (chars : List Char) (schemas : List ColumnSchema) (row : TableRow),
      '\n' ∉ chars → tryFromChars dec chars schemas ≠ .ok row)
    ∧ (∀ (chars : List Char) (schemas : List ColumnSchema),
        '\n' ∉ chars → '\t' ∉ chars →
        tryFromChars dec chars schemas = .error .unterminatedRow)
    ∧ (∀ schemas : List ColumnSchema, tryFromChars dec [] schemas = .error .unterminatedRow)
    ∧ tryFromChars demoDec ['a', '\n'] [⟨"c", PgType.text⟩] = .ok ⟨[Cell.textV ['a']]⟩ := by
  refine ⟨?_, ?_, ?_, rfl⟩
  · intro chars schemas row hmem h
    unfold tryFromChars at h
    cases hg : go dec chars false false [] schemas [] with
    | ok vs => exact go_no_lf_not_ok dec chars false [] schemas [] vs hmem hg
    | error e =>
      rw [hg] at h
      simp [Except.map] at h
  · intro chars schemas hn ht
    unfold tryFromChars
    rw [go_no_sep_unterminated dec chars false [] schemas [] hn ht]
    rfl
  · intro schemas
    rfl

/-- Witness for C5 (amended): the input `x`, with no line feed and no tab,
yields the unterminated-row error. -/
theorem unterminated_record_witness :
    ('\n' ∉ (['x'] : List Char)) ∧ ('\t' ∉ (['x'] : List Char))
    ∧ tryFromChars demoDec ['x'] [] = .error .unterminatedRow :=
  ⟨by decide, by decide,
    (unterminated_record demoDec).2.1 ['x'] [] (by decide) (by decide)⟩

/-- Counterexample for C5 as stated: the input `a\tb` has no line feed, yet
against an empty schema the converter reports the column-count mismatch at
the tab boundary, not the unterminated-record error. -/
theorem unterminated_counterexample :
    tryFromChars demoDec ['a', '\t', 'b'] [] = .error .numColsMismatch
    ∧ TableRowConversionError.numColsMismatch ≠ .unterminatedRow :=
  ⟨rfl, by decide⟩

/-- C7: the converter is a total function on arbitrary byte inputs: every
call returns either a fully built Row or a structured error (first
conjunct); bytes that are not valid UTF-8 yield `InvalidString` (second
conjunct); and an error return excludes any Row return — no partially
populated Row escapes (third conjunct). -/
theorem tryFrom_total (dec : Decoder) (bytes : List Nat) (schemas : List ColumnSchema) :
    ((∃ row, tryFrom dec bytes schemas = .ok row)
      ∨ (∃ e, tryFrom dec bytes schemas = .error e))
    ∧ (utf8Decode bytes = none → tryFrom dec bytes schemas = .error .invalidString)
    ∧ (∀ e, tryFrom dec bytes schemas = .error e →
        ∀ row, tryFrom dec bytes schemas ≠ .ok row) := by
  refine ⟨?_, ?_, ?_⟩
  · cases h : tryFrom dec bytes schemas with
    | ok row => exact Or.inl ⟨row, rfl⟩
    | error e => exact Or.inr ⟨e, rfl⟩
  · intro h
    unfold tryFrom
    rw [h]
  · intro e he row hrow
    rw [he] at hrow
    exact Except.noConfusion hrow

/-- Witness for C7: the lone byte 0xFF is not valid UTF-8 and produces the
`InvalidString` error. -/
theorem tryFrom_total_witness :
    utf8Decode [0xFF] = none ∧ tryFrom demoDec [0xFF] [] = .error .invalidString :=
  ⟨rfl, (tryFrom_total demoDec [0xFF] []).2.1 rfl⟩

/-- The varint byte list has exactly the arithmetically computed length. -/
theorem varintEncode_length (n : Nat) : (varintEncode n).length = varintLen n := by
  induction n using Nat.strong_induction_on with
  | _ n ih =>
    unfold varintEncode varintLen
    split_ifs with h
    · rfl
    · have hlt : n / 0x80 < n := Nat.div_lt_self (by omega) (by norm_num)
      simp [ih _ hlt]
      omega

/-- The UTF-8 bytes of one character have the arithmetically computed size. -/
theorem utf8EncodeChar_length (c : Char) : (utf8EncodeChar c).length = utf8ByteSize c := by
  unfold utf8EncodeChar utf8ByteSize
  split_ifs <;> simp

/-- The UTF-8 bytes of a text have the arithmetically computed size. -/
theorem utf8Encode_length (s : List Char) : (utf8Encode s).length = utf8Size s := by
  unfold utf8Encode utf8Size
  rw [List.length_flatten, List.map_map]
  simp [Function.comp_def, utf8EncodeChar_length]

/-- Per-cell length consistency of the modelled prost encoding. -/
theorem encodeProst_length (tag : Nat) (c : Cell) :
    (Cell.encodeProst tag c).length = Cell.encodedLenProst tag c := by
  cases c <;>
    simp [Cell.encodeProst, Cell.encodedLenProst, varintEncode_length,
      utf8Encode_length]
  omega

/-- The length loop agrees with the encode loop from any starting tag. -/
theorem encodeRawAux_length (cells : List Cell) :
    ∀ (tag : Nat),
      (encodeRawAux Cell.encodeProst tag cells).length
        = encodedLenAux Cell.encodedLenProst tag cells := by
  induction cells with
  | nil => intro tag; rfl
  | cons c rest ih =>
    intro tag
    simp [encodeRawAux, encodedLenAux, encodeProst_length, ih]

/-- C6: for every row, `encoded_len` equals the exact byte length of the
buffer written by `encode_raw`; `encoded_len` is computed by the arithmetic
length functions (`varintLen`, `utf8Size`) without materializing bytes. -/
theorem encodedLen_eq_length_encodeRaw (row : TableRow) :
    TableRow.encodedLen row = (TableRow.encodeRaw row).length := by
  unfold TableRow.encodedLen TableRow.encodeRaw
  exact (encodeRawAux_length row.values 1).symm

/-- The encode loop assigns consecutive tags starting from its initial tag:
it equals the flattened zip of the tag range with the cells. -/
theorem encodeRawAux_tags (enc : Nat → Cell → List Nat) (cells : List Cell) :
    ∀ (tag : Nat),
      encodeRawAux enc tag cells
        = (List.zipWith enc (List.range' tag cells.length) cells).flatten := by
  induction cells with
  | nil => intro tag; rfl
  | cons c rest ih =>
    intro tag
    rw [List.length_cons, List.range'_succ]
    simp [encodeRawAux, ih]

/-- C8: for every per-cell encoder and every row, the `encode_raw` loop
frames cell number `i` (1-based, in cell order) with tag `i`: it equals the
flattened zip of the tag sequence `1, 2, ..., N` with the row's cells; the
second conjunct instances this for the modelled prost cell encoder used by
`TableRow.encodeRaw`. -/
theorem encodeRaw_sequential_tags (enc : Nat → Cell → List Nat) (row : TableRow) :
    encodeRawAux enc 1 row.values
      = (List.zipWith enc (List.range' 1 row.values.length) row.values).flatten
    ∧ TableRow.encodeRaw row
      = (List.zipWith Cell.encodeProst (List.range' 1 row.values.length)
          row.values).flatten :=
  ⟨encodeRawAux_tags enc row.values 1, encodeRawAux_tags Cell.encodeProst row.values 1⟩
